import Mathlib

/-!
Shallow embedding of `src/app.py` (UCLA Hours Tool): a single-file pandas
pipeline that filters payroll rows to a client, aggregates hours per
(employee, pay rate), left-joins an assignment roster, generates line IDs
and exports a workbook.

Modelling conventions:
* A spreadsheet cell is `Option String`: `none` is pandas `NaN`/missing,
  `some s` is the cell's textual content (numeric cells are carried in
  their textual form; the pipeline always coerces via `str(x)` before use).
* Python floats are modelled as `ℚ`; a `NaN` float is `Option.none` of
  `Option ℚ`.  The pipeline never relies on float rounding: the parsing in
  `to_num` is exact decimal parsing.
* DataFrames are a list of column names plus a row-major list of cells.
-/

namespace UCLATool

/-- A cell value: `none` models pandas `NaN`/missing. -/
abbrev Cell := Option String

/-- Python `str(x)` applied to a cell: `str(nan) = "nan"`, a string is itself.
Models pandas `.astype(str)`. -/
def pyStr : Cell → String
  | none => "nan"
  | some s => s

/-- Python `s.lower()` (character-wise lowering, as used on ASCII headers). -/
def lowerStr (s : String) : String := String.mk (s.data.map Char.toLower)

/-- Substring containment on character lists: Python's `pat in hay`. -/
def containsSub (pat : List Char) : List Char → Bool
  | [] => pat.isEmpty
  | c :: t => pat.isPrefixOf (c :: t) || containsSub pat t

/-- `infer_column`'s dict `{c.lower(): c for c in df.columns}` as an
association list: key order is first occurrence of each lowercased name,
value is the LAST original column with that lowercased name (dict
overwrite semantics). -/
def colsLowerDict (cols : List String) : List (String × String) :=
  cols.foldl
    (fun acc c =>
      let k := lowerStr c
      if acc.any (fun p => p.1 = k) then
        acc.map (fun p => if p.1 = k then (k, c) else p)
      else
        acc ++ [(k, c)])
    []

/-- The exact case-insensitive lookup `cols_lower[cand.lower()]` (line 35-36). -/
def exactLookup (cols : List String) (cand : String) : Option String :=
  ((colsLowerDict cols).find? (fun p => p.1 = lowerStr cand)).map (fun p => p.2)

/-- The substring fallback loop `for k, v in cols_lower.items(): if cand.lower() in k`
(lines 38-40). -/
def substrLookup (cols : List String) (cand : String) : Option String :=
  ((colsLowerDict cols).find? (fun p => containsSub (lowerStr cand).data p.1.data)).map
    (fun p => p.2)

/-- `infer_column(df, candidates)` (src/app.py lines 31-41): for each candidate
in order, try the exact case-insensitive match, then the substring fallback,
before moving on to the next candidate. -/
def infer_column (cols : List String) : List String → Option String
  | [] => none
  | cand :: rest =>
    match exactLookup cols cand with
    | some c => some c
    | none =>
      match substrLookup cols cand with
      | some c => some c
      | none => infer_column cols rest

/-- What one candidate yields: exact match first, else substring fallback. -/
def candMatch (cols : List String) (cand : String) : Option String :=
  match exactLookup cols cand with
  | some c => some c
  | none => substrLookup cols cand

/-- The spec's reading of the inference order (claim C1): FIRST check the
exact case-insensitive match of every candidate in order, and only if no
candidate matches exactly fall back to the substring containment pass.
This definition follows the spec's words, for comparison with
`infer_column`, which is translated from the code. -/
def infer_column_specOrder (cols : List String) (cands : List String) : Option String :=
  match cands.findSome? (fun cand => exactLookup cols cand) with
  | some c => some c
  | none => cands.findSome? (fun cand => substrLookup cols cand)

/-! ### Dates: `most_recent_sunday` (src/app.py lines 44-55)

Dates are modelled by their proleptic-Gregorian ordinal (Python
`date.toordinal()`, ordinal 1 = 0001-01-01, a Monday), so Python's
`weekday()` (Monday=0 .. Sunday=6) is `(ordinal - 1) % 7`.  The variable
`days_back` computed at line 50 is dead code; the function's value comes
from the step-back loop at lines 52-54. -/

/-- Python `date.weekday()` on an ordinal: Monday=0 .. Sunday=6. -/
def pyWeekday (o : Nat) : Nat := (o - 1) % 7

/-- The loop `while d.weekday() != 6: d -= timedelta(days=1)` of
`most_recent_sunday`.  The `0` case models the floor of the timeline
(Python raises below ordinal 1); it is unreachable from any ordinal ≥ 7. -/
def most_recent_sunday : Nat → Nat
  | 0 => 0
  | o + 1 => if pyWeekday (o + 1) = 6 then o + 1 else most_recent_sunday o

/-! ### Whitespace canonicalization (lines 62, 71, 196, 201) -/

/-- One pass of the regex replacement `\s+` → `" "`: every maximal run of
whitespace characters becomes a single space. -/
def squeezeWs : List Char → List Char
  | [] => []
  | [c] => [if c.isWhitespace then ' ' else c]
  | c1 :: c2 :: cs =>
    if c1.isWhitespace && c2.isWhitespace then squeezeWs (c2 :: cs)
    else (if c1.isWhitespace then ' ' else c1) :: squeezeWs (c2 :: cs)

/-- Drop whitespace from both ends of a character list (Python `str.strip()`). -/
def stripWsChars (l : List Char) : List Char :=
  ((l.dropWhile Char.isWhitespace).reverse.dropWhile Char.isWhitespace).reverse

/-- Python `s.strip()`. -/
def pyStrip (s : String) : String := String.mk (stripWsChars s.data)

/-- `.str.replace(r"\s+", " ", regex=True).str.strip()` (line 71 and
identically lines 196, 201): collapse every whitespace run to one space,
then strip the ends. -/
def collapseWs (s : String) : String := String.mk (stripWsChars (squeezeWs s.data))

/-! ### Numeric coercion: `to_num` (lines 173-177)

`to_num(x) = float(str(x).replace(",", ""))`, returning `np.nan` on any
exception.  `float()` is modelled by exact decimal/scientific parsing into
`ℚ` (sign, digits, optional fraction, optional exponent, surrounding
whitespace allowed).  Python additionally accepts `"inf"`/`"nan"` and
underscore separators: `float("nan")` is the missing sentinel itself, which
this model also maps to `none`, and the other spellings never denote hour
or rate quantities in these spreadsheets. -/

/-- Digits-to-value accumulator for a list of decimal digit characters. -/
def digitsToNat (cs : List Char) : Nat := cs.foldl (fun a c => a * 10 + (c.toNat - 48)) 0

/-- Parse `digits`, `digits.digits`, `digits.` or `.digits` into an exact rational. -/
def parseMantissa (cs : List Char) : Option ℚ :=
  match List.splitOn '.' cs with
  | [ip] =>
    if !ip.isEmpty && ip.all Char.isDigit then some (digitsToNat ip : ℚ) else none
  | [ip, fp] =>
    if (!ip.isEmpty || !fp.isEmpty) && ip.all Char.isDigit && fp.all Char.isDigit then
      some ((digitsToNat ip : ℚ) + (digitsToNat fp : ℚ) / (10 : ℚ) ^ fp.length)
    else none
  | _ => none

/-- Parse a digit string into a nonnegative exponent value. -/
def parseExpDigits (r : List Char) : Option ℤ :=
  if !r.isEmpty && r.all Char.isDigit then some (digitsToNat r : ℤ) else none

/-- Parse an optionally signed decimal exponent. -/
def parseExponent (cs : List Char) : Option ℤ :=
  match cs with
  | [] => none
  | c :: r =>
    if c = '+' then parseExpDigits r
    else if c = '-' then (parseExpDigits r).map (fun z => -z)
    else parseExpDigits (c :: r)

/-- Parse an unsigned float: mantissa with optional `e`/`E` exponent part. -/
def parseUnsignedFloat (cs : List Char) : Option ℚ :=
  match List.splitOn 'e' (cs.map Char.toLower) with
  | [m] => parseMantissa m
  | [m, e] => do
    let q ← parseMantissa m
    let z ← parseExponent e
    pure (q * (10 : ℚ) ^ z)
  | _ => none

/-- Parse an optionally signed float. -/
def parseSignedFloat (cs : List Char) : Option ℚ :=
  match cs with
  | [] => parseUnsignedFloat []
  | c :: r =>
    if c = '+' then parseUnsignedFloat r
    else if c = '-' then (parseUnsignedFloat r).map (fun q => -q)
    else parseUnsignedFloat (c :: r)

/-- Python `float(s)`: strip surrounding whitespace, then parse; `none` models
both a raised `ValueError` and the `nan` result. -/
def pyFloat (s : String) : Option ℚ := parseSignedFloat (stripWsChars s.data)

/-- `str(x).replace(",", "")` — removes every comma. -/
def stripCommas (s : String) : String := String.mk (s.data.filter (fun c => c != ','))

/-- `to_num` (lines 173-177): stringify, strip commas, parse a float;
`none` is the missing sentinel `np.nan`. -/
def to_num (x : Cell) : Option ℚ := pyFloat (stripCommas (pyStr x))

/-- Hour-field coercion `.apply(to_num).fillna(0.0)` (lines 179-181):
missing becomes `0.0`. -/
def coerceHours (x : Cell) : ℚ := (to_num x).getD 0

/-- Pay-rate coercion `.apply(to_num)` (line 186): missing stays missing. -/
def coerceRate (x : Cell) : Option ℚ := to_num x

/-! ### DataFrames and the name normalizer (lines 58-71) -/

/-- A data frame: column names plus row-major cells. -/
structure DataFrame where
  cols : List String
  rows : List (List Cell)

/-- Column extraction `df[c]` (empty when the column is absent; the callers
guard membership). -/
def getColD (df : DataFrame) (c : String) : List Cell :=
  match List.findIdx? (fun x => x = c) df.cols with
  | some i => df.rows.map (fun r => r.getD i none)
  | none => []

/-- Last-resort branch of `normalize_name_parts` (lines 64-69): infer an
"employee name"/"name" column, or raise. -/
def namesGuess (df : DataFrame) : Except String (List String) :=
  match infer_column df.cols ["employee name", "name"] with
  | some g => Except.ok ((getColD df g).map pyStr)
  | none => Except.error "Could not determine employee name columns. Please map them in the sidebar."

/-- The `elif first_col and last_col and ... in df.columns` branch (lines
61-62): strip each part and join with a single space.  Python truthiness of
the column-name strings is the `isEmpty` check. -/
def namesFirstLast (df : DataFrame) (first_col last_col : Option String) : Except String (List String) :=
  match first_col, last_col with
  | some f, some l =>
    if !f.isEmpty && !l.isEmpty && df.cols.contains f && df.cols.contains l then
      Except.ok (List.zipWith (fun a b => pyStrip (pyStr a) ++ " " ++ pyStrip (pyStr b))
        (getColD df f) (getColD df l))
    else namesGuess df
  | _, _ => namesGuess df

/-- Source selection of `normalize_name_parts` (lines 59-69): full-name
column first (`if full_col and full_col in df.columns`), then first+last,
then the guessing fallback. -/
def namesSource (df : DataFrame) (first_col last_col full_col : Option String) : Except String (List String) :=
  match full_col with
  | some c =>
    if !c.isEmpty && df.cols.contains c then Except.ok ((getColD df c).map pyStr)
    else namesFirstLast df first_col last_col
  | none => namesFirstLast df first_col last_col

/-- `normalize_name_parts` (lines 58-71): pick the name source, then
canonicalize whitespace of every derived name. -/
def normalize_name_parts (df : DataFrame) (first_col last_col full_col : Option String) :
    Except String (List String) :=
  (namesSource df first_col last_col full_col).map (fun names => names.map collapseWs)

/-! ### Client filter (lines 161-163) -/

/-- `.str.contains(pat, case=False)` for a literal pattern: case-insensitive
substring containment. -/
def str_contains_ci (v pat : String) : Bool :=
  containsSub (lowerStr pat).data (lowerStr v).data

/-- The per-cell mask of line 162 after the `astype(str)` of line 161:
missing client values have become the string `"nan"`, so `na=False` has
nothing left to do. -/
def mask_ucla (client : Cell) : Bool := str_contains_ci (pyStr client) "UCLA"

/-- `payroll_df.loc[mask_ucla]` (line 163) over rows with a client-cell
accessor. -/
def filter_ucla {α : Type} (rows : List α) (clientOf : α → Cell) : List α :=
  rows.filter (fun r => mask_ucla (clientOf r))

/-! ### Aggregation (lines 187-192) -/

/-- A payroll row after name normalization and numeric coercion, and equally
an aggregated record: `{Employee Name, Pay Rate, Hours}`.  `rate = none`
is a `NaN` pay rate. -/
structure HoursRow where
  name : String
  rate : Option ℚ
  hours : ℚ
deriving DecidableEq, Repr

/-- Per-row `Hours = reg + ot + dt` (line 187) after hour-field coercion. -/
def hoursSum (reg ot dt : Cell) : ℚ := coerceHours reg + coerceHours ot + coerceHours dt

/-- The groupby key `(Employee Name, Pay Rate)`; `dropna=False` keeps `none`
rates as keys. -/
def rowKey (r : HoursRow) : String × Option ℚ := (r.name, r.rate)

/-- The distinct group keys, in order of first occurrence.  (pandas emits
groups sorted by key; no claim depends on group order, and the pipeline
re-sorts before assigning line IDs.) -/
def groupKeys (rows : List HoursRow) : List (String × Option ℚ) :=
  rows.foldl (fun ks r => if ks.contains (rowKey r) then ks else ks ++ [rowKey r]) []

/-- `groupby(["Employee Name", "Pay Rate"], dropna=False)["Hours"].sum()`
(lines 189-192): one output record per distinct key, with the summed hours
of its rows. -/
def groupSum (rows : List HoursRow) : List HoursRow :=
  (groupKeys rows).map (fun k =>
    ⟨k.1, k.2, ((rows.filter (fun r => decide (rowKey r = k))).map (fun r => r.hours)).sum⟩)

/-! ### The roster and the left join (lines 194-208) -/

/-- A slim roster row `(_name, _rate, assign_no)` (lines 196-198): name
whitespace-canonicalized, rate coerced, assignment number kept as a raw cell. -/
structure RosterRow where
  name : String
  rate : Option ℚ
  assignNo : Cell
deriving DecidableEq, Repr

/-- `assign_df_slim = assign_df[["_name", "_rate", assign_no_col]].drop_duplicates()`
(line 198): keep the first occurrence of each full triple. -/
def drop_duplicates (rows : List RosterRow) : List RosterRow :=
  rows.foldl (fun acc r => if acc.contains r then acc else acc ++ [r]) []

/-- The summary-side join key (lines 201-202): `_name` re-canonicalizes the
already-canonical name (a no-op, claim C10); `_rate` re-applies `to_num` to an
already-parsed float, which round-trips through `str`, hence is the rate itself. -/
def sKey (s : HoursRow) : String × Option ℚ := (collapseWs s.name, s.rate)

/-- The roster rows matching one summary row's key, in roster order. -/
def matchesOf (roster : List RosterRow) (s : HoursRow) : List RosterRow :=
  roster.filter (fun r => decide ((r.name, r.rate) = sKey s))

/-- A joined row: the summary fields plus `Assignment #`; `assign = none`
is the `NaN` a left join leaves on unmatched rows (and also a matched roster
row whose assignment cell was itself blank). -/
structure JoinedRow where
  name : String
  rate : Option ℚ
  hours : ℚ
  assign : Cell
deriving DecidableEq, Repr

/-- One left-join group: a summary row with no roster match survives alone
with `assign = none`; otherwise it is repeated once per matching roster row. -/
def leftJoinOne (roster : List RosterRow) (s : HoursRow) : List JoinedRow :=
  match matchesOf roster s with
  | [] => [⟨s.name, s.rate, s.hours, none⟩]
  | ms => ms.map (fun r => ⟨s.name, s.rate, s.hours, r.assignNo⟩)

/-- `summary.merge(assign_df_slim, how="left", on=["_name", "_rate"])`
(lines 203-208): left order preserved, right matches in roster order. -/
def leftJoin (summary : List HoursRow) (roster : List RosterRow) : List JoinedRow :=
  summary.flatMap (fun s => leftJoinOne roster s)

/-- The roster-side `_name` transformation (line 196). -/
def rosterKeyName (c : Cell) : String := collapseWs (pyStr c)

/-- The summary-side `_name` transformation (line 201); `astype(str)` on a
string column is the identity. -/
def summaryKeyName (s : String) : String := collapseWs s

/-! ### Line IDs and the export (lines 150-154, 212-239) -/

/-- A calendar date as picked in the sidebar. -/
structure PyDate where
  year : Nat
  month : Nat
  day : Nat
deriving DecidableEq, Repr

/-- Little-endian decimal digits, by fuel (`n` itself is enough fuel). -/
def natDigitsAux : Nat → Nat → List Nat
  | 0, _ => []
  | _ + 1, 0 => []
  | fuel + 1, n + 1 => ((n + 1) % 10) :: natDigitsAux fuel ((n + 1) / 10)

/-- Little-endian decimal digits of `n` (empty for 0). -/
def natDigits (n : Nat) : List Nat := natDigitsAux n n

/-- Little-endian digits zero-padded (at the most-significant end) to width
`w` — Python's `%0wd` for nonnegative input, digit-level. -/
def padDigits (w n : Nat) : List Nat :=
  natDigits n ++ List.replicate (w - (natDigits n).length) 0

/-- Python `f"{n:0wd}"` for `n ≥ 0`: decimal, zero-padded to at least `w`
characters. -/
def padNatStr (w n : Nat) : String :=
  String.mk ((padDigits w n).reverse.map Nat.digitChar)

/-- `custom_we.strftime("%Y%m%d")` (line 154). -/
def yyyymmdd (d : PyDate) : String :=
  padNatStr 4 d.year ++ padNatStr 2 d.month ++ padNatStr 2 d.day

/-- `f"{we_id_prefix}{i:04d}"` (line 217). -/
def uniqueLineID (we : PyDate) (i : Nat) : String := yyyymmdd we ++ padNatStr 4 i

/-- `NaN`-last ascending order on pay rates (pandas `sort_values` default
`na_position="last"`). -/
def rateLE : Option ℚ → Option ℚ → Bool
  | none, none => true
  | none, some _ => false
  | some _, none => true
  | some x, some y => decide (x ≤ y)

/-- Ascending lexicographic order on `(Employee Name, Pay Rate)`. -/
def keyLE (a b : JoinedRow) : Bool :=
  if a.name = b.name then rateLE a.rate b.rate else decide (a.name < b.name)

/-- `joined.sort_values(["Employee Name", "Pay Rate"])` (line 216): a stable
sort by the ascending key. -/
def sortJoined (rows : List JoinedRow) : List JoinedRow := rows.mergeSort keyLE

/-- Line-ID assignment (line 217): the `i`-th row of the (sorted) sequence,
1-based, is tagged `f"{we_id_prefix}{i:04d}"`. -/
def addLineIDs (we : PyDate) (rows : List JoinedRow) : List (JoinedRow × String) :=
  rows.enum.map (fun p => (p.2, uniqueLineID we (p.1 + 1)))

/-- `joined[joined["Assignment #"].isna()][["Employee Name", "Pay Rate", "Hours"]]`
(line 229). -/
def unmatchedOf (rows : List JoinedRow) : List (String × Option ℚ × ℚ) :=
  (rows.filter (fun j => j.assign.isNone)).map (fun j => (j.name, j.rate, j.hours))

/-- The output workbook: the `Export` sheet always, the `Unmatched` sheet
only when non-empty (lines 236-239). -/
structure Workbook where
  exportSheet : List (JoinedRow × String)
  unmatchedSheet : Option (List (String × Option ℚ × ℚ))
deriving Repr

/-- The tail of the pipeline (lines 216-239): sort, assign line IDs, collect
unmatched rows, and write the workbook. -/
def runExport (we : PyDate) (joined : List JoinedRow) : Workbook :=
  let sorted := sortJoined joined
  let um := unmatchedOf sorted
  ⟨addLineIDs we sorted, if um.isEmpty then none else some um⟩

/-- Value of a little-endian digit list. -/
def ofDigitsTen (l : List Nat) : Nat := l.foldr (fun d r => d + 10 * r) 0

/-- No two adjacent whitespace characters (the shape `squeezeWs` guarantees). -/
def NoWsPair (a b : Char) : Prop := ¬(a.isWhitespace = true ∧ b.isWhitespace = true)

/-! ## Helper lemmas -/

theorem ofDigitsTen_nil : ofDigitsTen [] = 0 := rfl

theorem ofDigitsTen_cons (d : Nat) (l : List Nat) :
    ofDigitsTen (d :: l) = d + 10 * ofDigitsTen l := rfl

theorem ofDigitsTen_append (l1 l2 : List Nat) :
    ofDigitsTen (l1 ++ l2) = ofDigitsTen l1 + 10 ^ l1.length * ofDigitsTen l2 := by
  induction l1 with
  | nil => simp [ofDigitsTen_nil]
  | cons d t ih =>
    simp only [List.cons_append, ofDigitsTen_cons, ih, List.length_cons]
    ring

theorem ofDigitsTen_replicate_zero (k : Nat) : ofDigitsTen (List.replicate k 0) = 0 := by
  induction k with
  | zero => rfl
  | succ m ih => simp [List.replicate, ofDigitsTen_cons, ih]

theorem natDigitsAux_lt_ten : ∀ (fuel n : Nat), ∀ d ∈ natDigitsAux fuel n, d < 10 := by
  intro fuel
  induction fuel with
  | zero => intro n d hd; simp [natDigitsAux] at hd
  | succ f ih =>
    intro n d hd
    cases n with
    | zero => simp [natDigitsAux] at hd
    | succ m =>
      simp only [natDigitsAux] at hd
      rcases List.mem_cons.mp hd with h | h
      · subst h; exact Nat.mod_lt _ (by norm_num)
      · exact ih _ d h

theorem ofDigitsTen_natDigitsAux : ∀ (fuel n : Nat), n ≤ fuel →
    ofDigitsTen (natDigitsAux fuel n) = n := by
  intro fuel
  induction fuel with
  | zero =>
    intro n h
    have : n = 0 := Nat.le_zero.mp h
    subst this
    rfl
  | succ f ih =>
    intro n h
    cases n with
    | zero => rfl
    | succ m =>
      have hdiv : (m + 1) / 10 ≤ f := by omega
      simp only [natDigitsAux, ofDigitsTen_cons, ih _ hdiv]
      omega

theorem ofDigitsTen_natDigits (n : Nat) : ofDigitsTen (natDigits n) = n :=
  ofDigitsTen_natDigitsAux n n le_rfl

theorem ofDigitsTen_padDigits (w n : Nat) : ofDigitsTen (padDigits w n) = n := by
  rw [padDigits, ofDigitsTen_append, ofDigitsTen_replicate_zero, ofDigitsTen_natDigits]
  ring

theorem padDigits_lt_ten (w n : Nat) : ∀ d ∈ padDigits w n, d < 10 := by
  intro d hd
  rcases List.mem_append.mp hd with h | h
  · exact natDigitsAux_lt_ten n n d h
  · have := List.eq_of_mem_replicate h
    omega

theorem digitChar_injOn : ∀ a, a < 10 → ∀ b, b < 10 →
    Nat.digitChar a = Nat.digitChar b → a = b := by decide

theorem map_digitChar_injOn : ∀ (l1 l2 : List Nat), (∀ d ∈ l1, d < 10) → (∀ d ∈ l2, d < 10) →
    l1.map Nat.digitChar = l2.map Nat.digitChar → l1 = l2 := by
  intro l1
  induction l1 with
  | nil =>
    intro l2 _ _ h
    cases l2 with
    | nil => rfl
    | cons b t2 => simp at h
  | cons a t ih =>
    intro l2 h1 h2 h
    cases l2 with
    | nil => simp at h
    | cons b t2 =>
      simp only [List.map_cons, List.cons.injEq] at h
      obtain ⟨hab, ht⟩ := h
      have hab' : a = b :=
        digitChar_injOn a (h1 a (List.mem_cons_self a t)) b (h2 b (List.mem_cons_self b t2)) hab
      subst hab'
      rw [ih t2 (fun d hd => h1 d (List.mem_cons_of_mem _ hd))
        (fun d hd => h2 d (List.mem_cons_of_mem _ hd)) ht]

theorem padNatStr_inj (w a b : Nat) : padNatStr w a = padNatStr w b → a = b := by
  intro h
  have hd : (padDigits w a).reverse.map Nat.digitChar = (padDigits w b).reverse.map Nat.digitChar :=
    congrArg String.data h
  have hrev := map_digitChar_injOn _ _
    (fun d hdm => padDigits_lt_ten w a d (List.mem_reverse.mp hdm))
    (fun d hdm => padDigits_lt_ten w b d (List.mem_reverse.mp hdm)) hd
  have hpad := List.reverse_injective hrev
  have := congrArg ofDigitsTen hpad
  rwa [ofDigitsTen_padDigits, ofDigitsTen_padDigits] at this

theorem uniqueLineID_inj (we : PyDate) (a b : Nat) :
    uniqueLineID we a = uniqueLineID we b → a = b := by
  intro h
  apply padNatStr_inj 4
  have hdata := congrArg String.data h
  rw [uniqueLineID, uniqueLineID, String.data_append, String.data_append] at hdata
  have h2 := List.append_cancel_left hdata
  exact congrArg String.mk h2

theorem squeezeWs_cons_of_neg (c : Char) (cs : List Char) (h : c.isWhitespace = false) :
    squeezeWs (c :: cs) = c :: squeezeWs cs := by
  cases cs with
  | nil => simp [squeezeWs, h]
  | cons c2 cs' => simp [squeezeWs, h]

theorem squeezeWs_head?_of_neg (c : Char) (cs : List Char) (h : c.isWhitespace = false) :
    (squeezeWs (c :: cs)).head? = some c := by
  rw [squeezeWs_cons_of_neg c cs h]
  rfl

theorem squeezeWs_cons₂_both (c1 c2 : Char) (cs' : List Char)
    (h1 : c1.isWhitespace = true) (h2 : c2.isWhitespace = true) :
    squeezeWs (c1 :: c2 :: cs') = squeezeWs (c2 :: cs') := by
  simp [squeezeWs, h1, h2]

theorem squeezeWs_cons₂_notboth (c1 c2 : Char) (cs' : List Char)
    (h : (c1.isWhitespace && c2.isWhitespace) = false) :
    squeezeWs (c1 :: c2 :: cs') = (if c1.isWhitespace then ' ' else c1) :: squeezeWs (c2 :: cs') := by
  simp only [squeezeWs, h, Bool.false_eq_true, if_false]

theorem squeezeWs_ws_eq_space : ∀ (l : List Char), ∀ c ∈ squeezeWs l,
    c.isWhitespace = true → c = ' ' := by
  intro l
  induction l with
  | nil => intro c hc; simp [squeezeWs] at hc
  | cons c1 cs ih =>
    intro c hc hw
    cases cs with
    | nil =>
      simp only [squeezeWs, List.mem_singleton] at hc
      subst hc
      cases h1 : c1.isWhitespace with
      | true => simp [h1]
      | false =>
        rw [h1] at hw
        simp only [Bool.false_eq_true, if_false] at hw
        rw [hw] at h1
        exact absurd h1 (by decide)
    | cons c2 cs' =>
      cases h1 : c1.isWhitespace with
      | true =>
        cases h2 : c2.isWhitespace with
        | true =>
          rw [squeezeWs_cons₂_both c1 c2 cs' h1 h2] at hc
          exact ih c hc hw
        | false =>
          rw [squeezeWs_cons₂_notboth c1 c2 cs' (by simp [h2])] at hc
          rcases List.mem_cons.mp hc with h | h
          · rw [h, h1]; simp
          · exact ih c h hw
      | false =>
        rw [squeezeWs_cons₂_notboth c1 c2 cs' (by simp [h1])] at hc
        rcases List.mem_cons.mp hc with h | h
        · rw [h1] at h
          simp only [Bool.false_eq_true, if_false] at h
          rw [h] at hw
          rw [hw] at h1
          exact absurd h1 (by decide)
        · exact ih c h hw

theorem squeezeWs_chain' : ∀ (l : List Char), List.Chain' NoWsPair (squeezeWs l) := by
  intro l
  induction l with
  | nil => simp [squeezeWs]
  | cons c1 cs ih =>
    cases cs with
    | nil => exact List.chain'_singleton _
    | cons c2 cs' =>
      cases h1 : c1.isWhitespace with
      | true =>
        cases h2 : c2.isWhitespace with
        | true => rw [squeezeWs_cons₂_both c1 c2 cs' h1 h2]; exact ih
        | false =>
          rw [squeezeWs_cons₂_notboth c1 c2 cs' (by simp [h2])]
          rw [List.chain'_cons']
          refine ⟨?_, ih⟩
          intro y hy
          rw [squeezeWs_head?_of_neg c2 cs' h2] at hy
          simp only [Option.mem_def, Option.some.injEq] at hy
          subst hy
          intro hcon
          rw [h2] at hcon
          exact Bool.false_ne_true hcon.2
      | false =>
        rw [squeezeWs_cons₂_notboth c1 c2 cs' (by simp [h1])]
        rw [List.chain'_cons']
        refine ⟨?_, ih⟩
        intro y hy hcon
        rw [h1] at hcon
        simp only [Bool.false_eq_true, if_false] at hcon
        rw [h1] at hcon
        exact Bool.false_ne_true hcon.1

theorem squeezeWs_of_canonical : ∀ (l : List Char), List.Chain' NoWsPair l →
    (∀ c ∈ l, c.isWhitespace = true → c = ' ') → squeezeWs l = l := by
  intro l
  induction l with
  | nil => intro _ _; rfl
  | cons c1 cs ih =>
    intro hch hsp
    cases cs with
    | nil =>
      cases h1 : c1.isWhitespace with
      | true =>
        have := hsp c1 (List.mem_cons_self _ _) h1
        simp [squeezeWs, h1, this]
      | false => simp [squeezeWs, h1]
    | cons c2 cs' =>
      have hpair : NoWsPair c1 c2 := (List.chain'_cons.mp hch).1
      have htail : squeezeWs (c2 :: cs') = c2 :: cs' :=
        ih (List.chain'_cons.mp hch).2 (fun c hc hw => hsp c (List.mem_cons_of_mem _ hc) hw)
      cases h1 : c1.isWhitespace with
      | true =>
        have h2 : c2.isWhitespace = false := by
          cases h2 : c2.isWhitespace with
          | true => exact absurd ⟨h1, h2⟩ hpair
          | false => rfl
        have hc1 : c1 = ' ' := hsp c1 (List.mem_cons_self _ _) h1
        rw [squeezeWs_cons₂_notboth c1 c2 cs' (by simp [h2]), htail, h1]
        simp [hc1]
      | false =>
        rw [squeezeWs_cons₂_notboth c1 c2 cs' (by simp [h1]), htail, h1]
        simp

theorem dropWhile_head?_false {α : Type} (p : α → Bool) :
    ∀ (l : List α) (c : α), (l.dropWhile p).head? = some c → p c = false := by
  intro l
  induction l with
  | nil => intro c h; simp at h
  | cons a t ih =>
    intro c h
    rw [List.dropWhile_cons] at h
    by_cases ha : p a = true
    · rw [if_pos ha] at h
      exact ih c h
    · rw [if_neg ha] at h
      simp only [List.head?_cons, Option.some.injEq] at h
      subst h
      simpa using ha

theorem dropWhile_eq_self_of_head? {α : Type} (p : α → Bool) (l : List α)
    (h : ∀ c, l.head? = some c → p c = false) : l.dropWhile p = l := by
  cases l with
  | nil => rfl
  | cons a t => rw [List.dropWhile_cons, if_neg]; simp [h a rfl]

theorem stripWsChars_head?_false (l : List Char) (c : Char)
    (h : (stripWsChars l).head? = some c) : c.isWhitespace = false := by
  rw [stripWsChars] at h
  set A := l.dropWhile Char.isWhitespace with hA
  set B := A.reverse.dropWhile Char.isWhitespace with hB
  obtain ⟨t, ht⟩ : B <:+ A.reverse := List.dropWhile_suffix _
  have hAeq : B.reverse ++ t.reverse = A := by
    have := congrArg List.reverse ht
    simpa [List.reverse_append] using this
  have hBne : B ≠ [] := by
    intro hnil
    rw [hnil] at h
    simp at h
  have hBrevne : B.reverse ≠ [] := by simpa using hBne
  have hhead : A.head? = some c := by
    rw [← hAeq, List.head?_append_of_ne_nil _ hBrevne]
    exact h
  exact dropWhile_head?_false _ l c hhead

theorem stripWsChars_idem (l : List Char) :
    stripWsChars (stripWsChars l) = stripWsChars l := by
  have h1 : (stripWsChars l).dropWhile Char.isWhitespace = stripWsChars l :=
    dropWhile_eq_self_of_head? _ _ (fun c hc => stripWsChars_head?_false l c hc)
  have h2 : (stripWsChars l).reverse.dropWhile Char.isWhitespace = (stripWsChars l).reverse := by
    apply dropWhile_eq_self_of_head?
    intro c hc
    rw [stripWsChars, List.reverse_reverse] at hc
    exact dropWhile_head?_false _ _ c hc
  calc stripWsChars (stripWsChars l)
      = (((stripWsChars l).dropWhile Char.isWhitespace).reverse.dropWhile
          Char.isWhitespace).reverse := rfl
    _ = ((stripWsChars l).reverse.dropWhile Char.isWhitespace).reverse := by rw [h1]
    _ = (stripWsChars l).reverse.reverse := by rw [h2]
    _ = stripWsChars l := List.reverse_reverse _

theorem stripWsChars_infix (l : List Char) : stripWsChars l <:+: l := by
  rw [stripWsChars]
  set A := l.dropWhile Char.isWhitespace with hA
  set B := A.reverse.dropWhile Char.isWhitespace with hB
  obtain ⟨t, ht⟩ : B <:+ A.reverse := List.dropWhile_suffix _
  have hAeq : B.reverse ++ t.reverse = A := by
    have := congrArg List.reverse ht
    simpa [List.reverse_append] using this
  have hpre : B.reverse <+: A := ⟨t.reverse, hAeq⟩
  have hsuf : A <:+ l := List.dropWhile_suffix _
  exact List.IsInfix.trans (List.IsPrefix.isInfix hpre) (List.IsSuffix.isInfix hsuf)

theorem collapseWs_idem (s : String) : collapseWs (collapseWs s) = collapseWs s := by
  show String.mk (stripWsChars (squeezeWs (stripWsChars (squeezeWs s.data)))) = _
  have hinf : stripWsChars (squeezeWs s.data) <:+: squeezeWs s.data := stripWsChars_infix _
  have hchain : List.Chain' NoWsPair (stripWsChars (squeezeWs s.data)) :=
    List.Chain'.infix (squeezeWs_chain' s.data) hinf
  have hsp : ∀ c ∈ stripWsChars (squeezeWs s.data), c.isWhitespace = true → c = ' ' :=
    fun c hc hw => squeezeWs_ws_eq_space s.data c (List.IsInfix.subset hinf hc) hw
  rw [squeezeWs_of_canonical _ hchain hsp, stripWsChars_idem]
  rfl

theorem most_recent_sunday_closed : ∀ d : Nat, 7 ≤ d → most_recent_sunday d = d - d % 7 := by
  intro d
  induction d using Nat.strong_induction_on with
  | _ d ih =>
    intro h7
    cases d with
    | zero => omega
    | succ o =>
      by_cases hw : pyWeekday (o + 1) = 6
      · rw [show most_recent_sunday (o + 1) = o + 1 by simp [most_recent_sunday, hw]]
        unfold pyWeekday at hw
        omega
      · rw [show most_recent_sunday (o + 1) = most_recent_sunday o by
          simp [most_recent_sunday, hw]]
        unfold pyWeekday at hw
        have h8 : 8 ≤ o + 1 := by omega
        rw [ih o (by omega) (by omega)]
        omega

/-- Claim C7: for every anchor date (any ordinal from 0001-01-07 on, so that a
Sunday on or before it exists on Python's timeline), the step-back loop of
`most_recent_sunday` terminates — it is a total function here, with value
`d - d % 7` — and returns a Sunday that is on or before the anchor, strictly
within 7 days of it, and equal to the anchor when the anchor is a Sunday. -/
theorem C7_most_recent_sunday_default (d : Nat) (h : 7 ≤ d) :
    pyWeekday (most_recent_sunday d) = 6 ∧
    most_recent_sunday d ≤ d ∧
    d - most_recent_sunday d < 7 ∧
    (pyWeekday d = 6 → most_recent_sunday d = d) := by
  have hc := most_recent_sunday_closed d h
  unfold pyWeekday at *
  refine ⟨?_, ?_, ?_, ?_⟩ <;> omega

/-- Witness for C7 at the ordinal of 2024-06-14 (a Friday); the most recent
Sunday is ordinal 739046 = 2024-06-09. -/
theorem C7_most_recent_sunday_default_witness :
    pyWeekday (most_recent_sunday 739051) = 6 ∧
    most_recent_sunday 739051 ≤ 739051 ∧
    739051 - most_recent_sunday 739051 < 7 ∧
    (pyWeekday 739051 = 6 → most_recent_sunday 739051 = 739051) :=
  C7_most_recent_sunday_default 739051 (by norm_num)

/-- Claim C1 (amended): `infer_column` processes the candidates one at a time,
checking the exact case-insensitive match and then the substring fallback of
each candidate before moving to the next, and returns the match of the first
candidate that matches by either rule; in the cited example the exact match on
the second candidate still wins, because the first candidate matches no column
by either rule. -/
theorem C1_infer_column_candidate_order :
    (∀ (cols cands : List String),
      infer_column cols cands = List.findSome? (fun cand => candMatch cols cand) cands) ∧
    infer_column ["Reg H (e)", "Client Name"] ["reg hours", "Reg H (e)"] = some "Reg H (e)" := by
  constructor
  · intro cols cands
    induction cands with
    | nil => rfl
    | cons cand rest ih =>
      rw [List.findSome?_cons]
      cases hE : exactLookup cols cand with
      | some c => simp [infer_column, candMatch, hE]
      | none =>
        cases hS : substrLookup cols cand with
        | some c => simp [infer_column, candMatch, hE, hS]
        | none => simp [infer_column, candMatch, hE, hS, ih]
  · decide

/-- Counterexample to claim C1 as stated: the code does NOT check exact
matches across all candidates before any substring fallback.  With columns
`["XAB", "CD"]` and candidates `["ab", "cd"]`, the substring fallback of the
first candidate returns `"XAB"`, whereas the spec's exact-matches-first order
(`infer_column_specOrder`) would return the exact match `"CD"` of the second
candidate. -/
theorem C1_infer_column_counterexample :
    infer_column ["XAB", "CD"] ["ab", "cd"] = some "XAB" ∧
    infer_column_specOrder ["XAB", "CD"] ["ab", "cd"] = some "CD" ∧
    ¬(∀ (cols cands : List String), infer_column cols cands = infer_column_specOrder cols cands) := by
  refine ⟨by decide, by decide, fun h => ?_⟩
  have hx := h ["XAB", "CD"] ["ab", "cd"]
  rw [show infer_column ["XAB", "CD"] ["ab", "cd"] = some "XAB" from by decide,
    show infer_column_specOrder ["XAB", "CD"] ["ab", "cd"] = some "CD" from by decide] at hx
  exact absurd hx (by decide)

/-- Claim C5: numeric coercion stringifies the cell, strips the
thousands-separator commas and parses a float, with the missing sentinel on
any parse failure: `"1,234.5"` parses to `1234.5`, `"abc"` and a missing cell
yield missing; the hour-field post-processing replaces missing with `0.0`
while the pay-rate field leaves missing as missing. -/
theorem C5_to_num_coercion :
    to_num (some "1,234.5") = some (1234.5 : ℚ) ∧
    to_num (some "abc") = none ∧
    to_num none = none ∧
    (∀ x : Cell, to_num x = pyFloat (stripCommas (pyStr x))) ∧
    (∀ x : Cell, coerceHours x = (to_num x).getD 0) ∧
    coerceHours (some "abc") = 0 ∧
    coerceHours none = 0 ∧
    (∀ x : Cell, coerceRate x = to_num x) ∧
    coerceRate (some "abc") = none ∧
    coerceRate none = none := by
  refine ⟨?_, by decide, by decide, fun x => rfl, fun x => rfl, by decide, by decide,
    fun x => rfl, by decide, by decide⟩
  have h1 : stripCommas (pyStr (some "1,234.5")) = "1234.5" := by decide
  have h2 : stripWsChars "1234.5".data = ['1', '2', '3', '4', '.', '5'] := by decide
  have h3 : List.splitOn 'e' (['1', '2', '3', '4', '.', '5'].map Char.toLower) =
      [['1', '2', '3', '4', '.', '5']] := by decide
  have h4 : List.splitOn '.' ['1', '2', '3', '4', '.', '5'] = [['1', '2', '3', '4'], ['5']] := by
    decide
  have h5 : digitsToNat ['1', '2', '3', '4'] = 1234 := by decide
  have h6 : digitsToNat ['5'] = 5 := by decide
  rw [to_num, h1, pyFloat, h2, parseSignedFloat]
  simp +decide only [parseUnsignedFloat, h3, parseMantissa, h4, h5, h6]
  norm_num

/-- Claim C6: a payroll row survives the client filter exactly when its
client cell, coerced to string, contains `"UCLA"` case-insensitively; a
missing client cell (stringified to `"nan"`) never matches, `"UCLA Extension"`
is retained and `"UCSB"` is excluded. -/
theorem C6_client_filter :
    (∀ {α : Type} (rows : List α) (clientOf : α → Cell) (r : α),
      r ∈ filter_ucla rows clientOf ↔
        r ∈ rows ∧ str_contains_ci (pyStr (clientOf r)) "UCLA" = true) ∧
    mask_ucla none = false ∧
    mask_ucla (some "UCLA Extension") = true ∧
    mask_ucla (some "UCSB") = false := by
  refine ⟨?_, by decide, by decide, by decide⟩
  intro α rows clientOf r
  rw [filter_ucla, List.mem_filter]
  exact Iff.rfl

/-- Claim C10: the whitespace canonicalization is idempotent, so the second
normalization applied to the summary's already-normalized `Employee Name`
values at join time is a no-op, and the payroll-side and roster-side join
keys are produced by one and the same transformation. -/
theorem C10_collapseWs_idempotent :
    (∀ s : String, collapseWs (collapseWs s) = collapseWs s) ∧
    (∀ s : String, summaryKeyName (collapseWs s) = collapseWs s) ∧
    (∀ c : Cell, rosterKeyName c = summaryKeyName (pyStr c)) :=
  ⟨collapseWs_idem, fun s => collapseWs_idem s, fun _ => rfl⟩

theorem contains_iff_mem {α : Type} [BEq α] [LawfulBEq α] (l : List α) (a : α) :
    l.contains a = true ↔ a ∈ l :=
  List.elem_iff

theorem groupKeys_foldl_mem : ∀ (rows : List HoursRow) (acc : List (String × Option ℚ))
    (k : String × Option ℚ),
    (k ∈ rows.foldl
        (fun ks r => if ks.contains (rowKey r) then ks else ks ++ [rowKey r]) acc) ↔
      k ∈ acc ∨ ∃ r ∈ rows, rowKey r = k := by
  intro rows
  induction rows with
  | nil => intro acc k; simp
  | cons r rows ih =>
    intro acc k
    rw [List.foldl_cons]
    by_cases hc : acc.contains (rowKey r) = true
    · rw [if_pos hc, ih]
      constructor
      · rintro (h | ⟨r', hr', hk⟩)
        · exact Or.inl h
        · exact Or.inr ⟨r', List.mem_cons_of_mem _ hr', hk⟩
      · rintro (h | ⟨r', hr', hk⟩)
        · exact Or.inl h
        · rcases List.mem_cons.mp hr' with h' | h'
          · subst h'
            exact Or.inl (hk ▸ (contains_iff_mem acc (rowKey r')).mp hc)
          · exact Or.inr ⟨r', h', hk⟩
    · rw [if_neg hc, ih]
      constructor
      · rintro (h | ⟨r', hr', hk⟩)
        · rcases List.mem_append.mp h with h' | h'
          · exact Or.inl h'
          · refine Or.inr ⟨r, List.mem_cons_self _ _, ?_⟩
            rw [List.mem_singleton] at h'
            exact h'.symm
        · exact Or.inr ⟨r', List.mem_cons_of_mem _ hr', hk⟩
      · rintro (h | ⟨r', hr', hk⟩)
        · exact Or.inl (List.mem_append.mpr (Or.inl h))
        · rcases List.mem_cons.mp hr' with h' | h'
          · subst h'
            exact Or.inl (List.mem_append.mpr (Or.inr (List.mem_singleton.mpr hk.symm)))
          · exact Or.inr ⟨r', h', hk⟩

theorem groupKeys_foldl_nodup : ∀ (rows : List HoursRow) (acc : List (String × Option ℚ)),
    acc.Nodup →
    (rows.foldl (fun ks r => if ks.contains (rowKey r) then ks else ks ++ [rowKey r]) acc).Nodup := by
  intro rows
  induction rows with
  | nil => intro acc h; exact h
  | cons r rows ih =>
    intro acc h
    rw [List.foldl_cons]
    by_cases hc : acc.contains (rowKey r) = true
    · rw [if_pos hc]; exact ih acc h
    · rw [if_neg hc]
      apply ih
      rw [List.nodup_append]
      refine ⟨h, List.nodup_singleton _, ?_⟩
      intro x hx hx1
      rw [List.mem_singleton] at hx1
      subst hx1
      exact hc ((contains_iff_mem acc (rowKey r)).mpr hx)

theorem mem_groupKeys (rows : List HoursRow) (k : String × Option ℚ) :
    k ∈ groupKeys rows ↔ ∃ r ∈ rows, rowKey r = k := by
  rw [groupKeys, groupKeys_foldl_mem]
  simp

theorem groupKeys_nodup (rows : List HoursRow) : (groupKeys rows).Nodup :=
  groupKeys_foldl_nodup rows [] List.nodup_nil

/-- Claim C4: aggregation groups by the exact pair `(Employee Name, Pay Rate)`
and sums `Hours` within each group; the groups are exactly the distinct keys
occurring in the input (so keys with a missing `Pay Rate` are retained rather
than dropped), each key appears once, and the cited example — two rows for
`("Jane Doe", 20.0)` with hours `3.0` and `4.5` — aggregates to one record
with `Hours = 7.5`. -/
theorem C4_aggregation : ∀ rows : List HoursRow,
    ((groupKeys rows).Nodup) ∧
    (∀ k, k ∈ groupKeys rows ↔ ∃ r ∈ rows, rowKey r = k) ∧
    (groupSum rows = (groupKeys rows).map (fun k =>
      ⟨k.1, k.2, ((rows.filter (fun r => decide (rowKey r = k))).map (fun r => r.hours)).sum⟩)) ∧
    (∀ g ∈ groupSum rows, (g.name, g.rate) ∈ groupKeys rows ∧
      g.hours =
        ((rows.filter (fun r => decide (rowKey r = (g.name, g.rate)))).map
          (fun r => r.hours)).sum) ∧
    groupSum [⟨"Jane Doe", some 20, 3⟩, ⟨"Jane Doe", some 20, 4.5⟩] =
      [⟨"Jane Doe", some 20, 7.5⟩] := by
  intro rows
  refine ⟨groupKeys_nodup rows, mem_groupKeys rows, rfl, ?_, ?_⟩
  · intro g hg
    rw [groupSum, List.mem_map] at hg
    obtain ⟨k, hk, hgk⟩ := hg
    subst hgk
    simpa using hk
  · have hkeys : groupKeys [⟨"Jane Doe", some 20, 3⟩, ⟨"Jane Doe", some 20, 4.5⟩] =
        [("Jane Doe", some 20)] := by
      rw [groupKeys]
      rw [List.foldl_cons, List.foldl_cons, List.foldl_nil]
      rfl
    rw [groupSum, hkeys]
    simp only [List.map_cons, List.map_nil, List.cons.injEq, and_true]
    rw [show List.filter
        (fun r => decide (rowKey r = ("Jane Doe", some 20)))
        [⟨"Jane Doe", some 20, 3⟩, ⟨"Jane Doe", some 20, 4.5⟩] =
        [⟨"Jane Doe", some 20, 3⟩, (⟨"Jane Doe", some 20, 4.5⟩ : HoursRow)] from by
      rw [List.filter_cons, List.filter_cons, List.filter_nil]
      simp [rowKey]]
    simp only [List.map_cons, List.map_nil, List.sum_cons, List.sum_nil]
    rw [HoursRow.mk.injEq]
    norm_num



/-- Witness for C4: the single-row group of `("Jane Doe", 20.0)` carries its
key and its summed hours. -/
theorem C4_aggregation_witness :
    ((⟨"Jane Doe", some 20, 3⟩ : HoursRow).name, (⟨"Jane Doe", some 20, 3⟩ : HoursRow).rate) ∈
      groupKeys [⟨"Jane Doe", some 20, 3⟩] ∧
    (⟨"Jane Doe", some 20, 3⟩ : HoursRow).hours =
      (([(⟨"Jane Doe", some 20, 3⟩ : HoursRow)].filter (fun r => decide (rowKey r =
        ((⟨"Jane Doe", some 20, 3⟩ : HoursRow).name,
          (⟨"Jane Doe", some 20, 3⟩ : HoursRow).rate)))).map (fun r => r.hours)).sum :=
  (C4_aggregation [⟨"Jane Doe", some 20, 3⟩]).2.2.2.1 ⟨"Jane Doe", some 20, 3⟩
    (by simp [groupSum, groupKeys, rowKey])

theorem leftJoinOne_nil (roster : List RosterRow) (s : HoursRow)
    (h : matchesOf roster s = []) :
    leftJoinOne roster s = [⟨s.name, s.rate, s.hours, none⟩] := by
  rw [leftJoinOne, h]

theorem leftJoinOne_cons (roster : List RosterRow) (s : HoursRow) (r0 : RosterRow)
    (ms : List RosterRow) (h : matchesOf roster s = r0 :: ms) :
    leftJoinOne roster s =
      (r0 :: ms).map (fun r => ⟨s.name, s.rate, s.hours, r.assignNo⟩) := by
  rw [leftJoinOne, h]

/-- Claim C3: the left outer join keyed on exact equality of the normalized
name and the coerced rate preserves every aggregated record at least once;
a record with no matching roster key appears exactly once with the assignment
number absent, and a record matching `k` roster rows appears exactly `k`
times, once per matching roster row (in roster order). -/
theorem C3_left_join : ∀ (summary : List HoursRow) (roster : List RosterRow),
    (leftJoin summary roster = summary.flatMap (fun s => leftJoinOne roster s)) ∧
    (∀ s : HoursRow,
      (matchesOf roster s = roster.filter (fun r => decide ((r.name, r.rate) = sKey s))) ∧
      (matchesOf roster s = [] → leftJoinOne roster s = [⟨s.name, s.rate, s.hours, none⟩]) ∧
      (matchesOf roster s ≠ [] →
        leftJoinOne roster s =
          (matchesOf roster s).map (fun r => ⟨s.name, s.rate, s.hours, r.assignNo⟩)) ∧
      (leftJoinOne roster s).length = max 1 (matchesOf roster s).length ∧
      (∀ j ∈ leftJoinOne roster s, j.name = s.name ∧ j.rate = s.rate ∧ j.hours = s.hours)) := by
  intro summary roster
  refine ⟨rfl, fun s => ⟨rfl, ?_, ?_, ?_, ?_⟩⟩
  · intro h
    exact leftJoinOne_nil roster s h
  · intro h
    rcases hm : matchesOf roster s with _ | ⟨r0, ms⟩
    · exact absurd hm h
    · exact leftJoinOne_cons roster s r0 ms hm
  · rcases hm : matchesOf roster s with _ | ⟨r0, ms⟩
    · rw [leftJoinOne_nil roster s hm]
      rfl
    · rw [leftJoinOne_cons roster s r0 ms hm]
      simp [Nat.max_eq_right, Nat.succ_le_succ]
  · intro j hj
    rcases hm : matchesOf roster s with _ | ⟨r0, ms⟩
    · rw [leftJoinOne_nil roster s hm, List.mem_singleton] at hj
      subst hj
      exact ⟨rfl, rfl, rfl⟩
    · rw [leftJoinOne_cons roster s r0 ms hm, List.mem_map] at hj
      obtain ⟨r, _, hr⟩ := hj
      subst hr
      exact ⟨rfl, rfl, rfl⟩

/-- Witness for C3: a record whose key matches two roster rows fans out into
two joined rows, one per roster row; a record with no match survives once
with an absent assignment number. -/
theorem C3_left_join_witness :
    leftJoinOne
        [⟨"Jane Doe", some 20, some "A100"⟩, ⟨"Jane Doe", some 20, some "A200"⟩]
        ⟨"Jane Doe", some 20, 7⟩ =
      [⟨"Jane Doe", some 20, 7, some "A100"⟩, ⟨"Jane Doe", some 20, 7, some "A200"⟩] ∧
    leftJoinOne
        [⟨"Jane Doe", some 20, some "A100"⟩, ⟨"Jane Doe", some 20, some "A200"⟩]
        ⟨"John Roe", some 25, 3⟩ =
      [⟨"John Roe", some 25, 3, none⟩] := by
  constructor
  · have h := ((C3_left_join [⟨"Jane Doe", some 20, 7⟩]
      [⟨"Jane Doe", some 20, some "A100"⟩, ⟨"Jane Doe", some 20, some "A200"⟩]).2
      ⟨"Jane Doe", some 20, 7⟩).2.2.1 (by decide)
    rw [h]
    decide
  · exact ((C3_left_join [⟨"John Roe", some 25, 3⟩]
      [⟨"Jane Doe", some 20, some "A100"⟩, ⟨"Jane Doe", some 20, some "A200"⟩]).2
      ⟨"John Roe", some 25, 3⟩).2.1 (by decide)

theorem addLineIDs_map_fst (we : PyDate) (l : List JoinedRow) :
    (addLineIDs we l).map Prod.fst = l := by
  rw [addLineIDs, List.map_map]
  rw [show (Prod.fst ∘ fun p : Nat × JoinedRow => (p.2, uniqueLineID we (p.1 + 1))) =
      Prod.snd from rfl]
  rw [List.enum_map_snd]

theorem addLineIDs_map_snd (we : PyDate) (l : List JoinedRow) :
    (addLineIDs we l).map Prod.snd =
      (List.range l.length).map (fun i => uniqueLineID we (i + 1)) := by
  rw [addLineIDs, List.map_map]
  rw [show (Prod.snd ∘ fun p : Nat × JoinedRow => (p.2, uniqueLineID we (p.1 + 1))) =
      (fun i => uniqueLineID we (i + 1)) ∘ Prod.fst from rfl]
  rw [← List.map_map, List.enum_map_fst]

theorem addLineIDs_length (we : PyDate) (l : List JoinedRow) :
    (addLineIDs we l).length = l.length := by
  rw [addLineIDs, List.length_map, List.enum_length]

/-- Claim C2: after sorting ascending by `(Employee Name, Pay Rate)`, the
`i`-th row (1-based) receives a line ID equal to the week-ending date as an
8-digit `YYYYMMDD` string followed by the zero-padded 4-digit sequence number
`i`; the IDs of one export are pairwise distinct, the assignment is a pure
function of the (input, date) pair — hence identical across identical runs —
and 2024-06-09 with two rows yields `202406090001` and `202406090002`. -/
theorem C2_line_id_generation : ∀ (rows : List JoinedRow) (we : PyDate),
    ((addLineIDs we (sortJoined rows)).map Prod.fst = sortJoined rows) ∧
    ((addLineIDs we (sortJoined rows)).length = rows.length) ∧
    (∀ i (h : i < (addLineIDs we (sortJoined rows)).length),
      ((addLineIDs we (sortJoined rows)).get ⟨i, h⟩).2 = uniqueLineID we (i + 1)) ∧
    (((addLineIDs we (sortJoined rows)).map Prod.snd).Pairwise (fun a b => a ≠ b)) ∧
    uniqueLineID ⟨2024, 6, 9⟩ 1 = "202406090001" ∧
    uniqueLineID ⟨2024, 6, 9⟩ 2 = "202406090002" ∧
    (∀ r1 r2 : JoinedRow, (addLineIDs ⟨2024, 6, 9⟩ (sortJoined [r1, r2])).map Prod.snd =
      ["202406090001", "202406090002"]) := by
  intro rows we
  refine ⟨addLineIDs_map_fst we _, ?_, ?_, ?_, by decide, by decide, ?_⟩
  · rw [addLineIDs_length, sortJoined, List.length_mergeSort]
  · intro i h
    rw [List.get_eq_getElem]
    simp only [addLineIDs, List.getElem_map, List.getElem_enum]
  · rw [addLineIDs_map_snd]
    refine List.Pairwise.map _ ?_ (List.pairwise_lt_range _)
    intro a b hab heq
    have := uniqueLineID_inj we (a + 1) (b + 1) heq
    omega
  · intro r1 r2
    rw [addLineIDs_map_snd]
    rw [show (sortJoined [r1, r2]).length = 2 from by
      rw [sortJoined, List.length_mergeSort]
      rfl]
    rw [show List.range 2 = [0, 1] from rfl]
    simp only [List.map_cons, List.map_nil]
    rw [show uniqueLineID ⟨2024, 6, 9⟩ (0 + 1) = "202406090001" from by decide,
      show uniqueLineID ⟨2024, 6, 9⟩ (1 + 1) = "202406090002" from by decide]

/-- Witness for C2: the first row of a concrete one-row export carries the ID
of sequence number 1. -/
theorem C2_line_id_generation_witness :
    ((addLineIDs ⟨2024, 6, 9⟩ (sortJoined [⟨"A", some 1, 1, none⟩])).get
        ⟨0, by rw [addLineIDs_length, sortJoined, List.length_mergeSort]; norm_num⟩).2 =
      uniqueLineID ⟨2024, 6, 9⟩ 1 :=
  (C2_line_id_generation [⟨"A", some 1, 1, none⟩] ⟨2024, 6, 9⟩).2.2.1 0 _

/-- Claim C8: if no full-name column is usable, no valid (first, last) pair is
usable, and the last-resort inference over "employee name"/"name" headers
finds nothing, then name normalization fails with the error that directs the
operator to map columns manually (no default name is silently produced);
whenever any source is determinable it succeeds, and every derived name is
the selected source with whitespace runs collapsed to single spaces and the
ends stripped — equivalently, a fixed point of the canonicalization. -/
theorem C8_name_normalizer_failure : ∀ (df : DataFrame) (fc lc fullc : Option String),
    ((∀ c, fullc = some c → (!c.isEmpty && df.cols.contains c) = false) →
      (∀ f l, fc = some f → lc = some l →
        (!f.isEmpty && !l.isEmpty && df.cols.contains f && df.cols.contains l) = false) →
      infer_column df.cols ["employee name", "name"] = none →
      normalize_name_parts df fc lc fullc =
        Except.error "Could not determine employee name columns. Please map them in the sidebar.") ∧
    (∀ ns, normalize_name_parts df fc lc fullc = Except.ok ns →
      ∃ src, namesSource df fc lc fullc = Except.ok src ∧ ns = src.map collapseWs) ∧
    ((∃ c, fullc = some c ∧ (!c.isEmpty && df.cols.contains c) = true) ∨
      (∃ f l, fc = some f ∧ lc = some l ∧
        (!f.isEmpty && !l.isEmpty && df.cols.contains f && df.cols.contains l) = true) ∨
      (∃ g, infer_column df.cols ["employee name", "name"] = some g) →
      ∃ ns, normalize_name_parts df fc lc fullc = Except.ok ns) ∧
    (∀ ns, normalize_name_parts df fc lc fullc = Except.ok ns →
      ∀ name ∈ ns, collapseWs name = name) := by
  intro df fc lc fullc
  have hok : ∀ ns, normalize_name_parts df fc lc fullc = Except.ok ns →
      ∃ src, namesSource df fc lc fullc = Except.ok src ∧ ns = src.map collapseWs := by
    intro ns hns
    cases hsrc : namesSource df fc lc fullc with
    | error e =>
      rw [normalize_name_parts, hsrc] at hns
      exact absurd hns (by simp [Except.map])
    | ok src =>
      rw [normalize_name_parts, hsrc] at hns
      simp only [Except.map, Except.ok.injEq] at hns
      exact ⟨src, rfl, hns.symm⟩
  refine ⟨?_, hok, ?_, ?_⟩
  · intro hfull hpair hguess
    have hfl : namesFirstLast df fc lc = namesGuess df := by
      cases fc with
      | none => cases lc <;> rfl
      | some f =>
        cases lc with
        | none => rfl
        | some l =>
          simp only [namesFirstLast]
          rw [if_neg (by rw [hpair f l rfl rfl]; exact Bool.false_ne_true)]
    have hns : namesSource df fc lc fullc = namesGuess df := by
      cases fullc with
      | none => exact hfl
      | some c =>
        simp only [namesSource]
        rw [if_neg (by rw [hfull c rfl]; exact Bool.false_ne_true)]
        exact hfl
    rw [normalize_name_parts, hns, namesGuess, hguess]
    rfl
  · intro hsome
    suffices h : ∃ src, namesSource df fc lc fullc = Except.ok src by
      obtain ⟨src, hsrc⟩ := h
      exact ⟨src.map collapseWs, by rw [normalize_name_parts, hsrc]; rfl⟩
    have hguessok : (∃ g, infer_column df.cols ["employee name", "name"] = some g) →
        ∃ src, namesGuess df = Except.ok src := by
      rintro ⟨g, hg⟩
      exact ⟨(getColD df g).map pyStr, by rw [namesGuess, hg]⟩
    have hflok : ((∃ f l, fc = some f ∧ lc = some l ∧
        (!f.isEmpty && !l.isEmpty && df.cols.contains f && df.cols.contains l) = true) ∨
        (∃ g, infer_column df.cols ["employee name", "name"] = some g)) →
        ∃ src, namesFirstLast df fc lc = Except.ok src := by
      rintro (⟨f, l, hf, hl, hcond⟩ | hg)
      · subst hf
        subst hl
        exact ⟨_, by simp only [namesFirstLast]; rw [if_pos hcond]⟩
      · obtain ⟨src, hsrc⟩ := hguessok hg
        cases hfc : fc with
        | none => cases hlc : lc <;> exact ⟨src, hsrc⟩
        | some f =>
          cases hlc : lc with
          | none => exact ⟨src, hsrc⟩
          | some l =>
            by_cases hcond : (!f.isEmpty && !l.isEmpty &&
                df.cols.contains f && df.cols.contains l) = true
            · exact ⟨_, by simp only [namesFirstLast]; rw [if_pos hcond]⟩
            · refine ⟨src, ?_⟩
              simp only [namesFirstLast]
              rw [if_neg hcond]
              exact hsrc
    rcases hsome with ⟨c, hc, hcond⟩ | hrest
    · subst hc
      exact ⟨_, by simp only [namesSource]; rw [if_pos hcond]⟩
    · obtain ⟨src, hsrc⟩ := hflok hrest
      cases hfullc : fullc with
      | none => exact ⟨src, hsrc⟩
      | some c =>
        by_cases hcond : (!c.isEmpty && df.cols.contains c) = true
        · exact ⟨_, by simp only [namesSource]; rw [if_pos hcond]⟩
        · refine ⟨src, ?_⟩
          simp only [namesSource]
          rw [if_neg hcond]
          exact hsrc
  · intro ns hns name hname
    obtain ⟨src, _, hmap⟩ := hok ns hns
    subst hmap
    obtain ⟨s0, _, hs0⟩ := List.mem_map.mp hname
    subst hs0
    exact collapseWs_idem s0

/-- Witness for C8: a table whose only column is `"X"` with no mapping at all
makes name normalization fail with the manual-mapping error. -/
theorem C8_name_normalizer_failure_witness :
    normalize_name_parts ⟨["X"], [[some "Bob"]]⟩ none none none =
      Except.error "Could not determine employee name columns. Please map them in the sidebar." :=
  (C8_name_normalizer_failure ⟨["X"], [[some "Bob"]]⟩ none none none).1
    (fun c h => nomatch h) (fun f l hf _ => nomatch hf) (by decide)

/-- Claim C9: exactly the joined rows with an absent assignment number are
collected (as `(Employee Name, Pay Rate, Hours)` triples) into the Unmatched
report; this is non-fatal — the export sheet still carries every joined row —
and the `Unmatched` sheet is part of the workbook exactly when the report is
non-empty. -/
theorem C9_unmatched_side_channel : ∀ (we : PyDate) (joined : List JoinedRow),
    ((runExport we joined).exportSheet = addLineIDs we (sortJoined joined)) ∧
    ((runExport we joined).exportSheet.map Prod.fst = sortJoined joined) ∧
    ((sortJoined joined).Perm joined) ∧
    (∀ t, t ∈ unmatchedOf (sortJoined joined) ↔
      ∃ j ∈ sortJoined joined, j.assign = none ∧ t = (j.name, j.rate, j.hours)) ∧
    ((runExport we joined).unmatchedSheet =
      if (unmatchedOf (sortJoined joined)).isEmpty then none
      else some (unmatchedOf (sortJoined joined))) ∧
    (((runExport we joined).unmatchedSheet).isSome = true ↔
      unmatchedOf (sortJoined joined) ≠ []) := by
  intro we joined
  refine ⟨rfl, addLineIDs_map_fst we _, List.mergeSort_perm joined keyLE, ?_, rfl, ?_⟩
  · intro t
    rw [unmatchedOf]
    simp only [List.mem_map, List.mem_filter, Option.isNone_iff_eq_none]
    constructor
    · rintro ⟨j, ⟨hj, ha⟩, ht⟩
      exact ⟨j, hj, ha, ht.symm⟩
    · rintro ⟨j, hj, ha, ht⟩
      exact ⟨j, ⟨hj, ha⟩, ht.symm⟩
  · by_cases hu : (unmatchedOf (sortJoined joined)).isEmpty = true
    · rw [show (runExport we joined).unmatchedSheet = none from by simp [runExport, hu]]
      simp [List.isEmpty_iff.mp hu]
    · rw [show (runExport we joined).unmatchedSheet = some (unmatchedOf (sortJoined joined))
        from by simp [runExport, hu]]
      simp only [Option.isSome_some, true_iff]
      intro h
      exact hu (by simp [h])

end UCLATool
